import Mathlib

/-!
Verification development for the Spotify-Podcast-Finder repository.

The definitions below are a shallow embedding of the core pipeline of the
repository:

* the pattern compiler and filter evaluation inside
  `search_service.run_search` (lines 282-509),
* the pagination loop of `SpotifyClient.search_episodes` and the
  status-code handling of `SpotifyClient.search_episodes` /
  `SpotifyClient.get_episodes` (`spotify_api.py`),
* the per-item upsert and run-record persistence of `run_search`
  (lines 511-607) over the `episodes` table of `db.py` (which carries a
  `UNIQUE(query_id, episode_id)` constraint).

Python strings are modelled as `List Char`; Python `str.lower` as a
character-wise `Char.toLower`; the external regular-expression engine
(`re.compile` / `Pattern.search`) and the glob matcher (`fnmatch.fnmatch`)
are abstracted as function parameters, since they are library collaborators
of the repository, not part of it.
-/

namespace PodcastFinder

/-- Python strings are modelled as lists of characters. -/
abbrev Str := List Char

/-- Model of Python `str.lower` (character-wise lowering). -/
def lowerStr (s : Str) : Str := s.map Char.toLower

/-- Model of Python `str.strip`: drop whitespace from both ends. -/
def stripStr (s : Str) : Str :=
  ((s.dropWhile Char.isWhitespace).reverse.dropWhile Char.isWhitespace).reverse

/-- Decides whether `n` is a prefix of `h`; helper for the substring test. -/
def strPre : Str → Str → Bool
  | [], _ => true
  | _ :: _, [] => false
  | a :: as, b :: bs => a == b && strPre as bs

/-- Model of the Python `in` operator on strings: `isSubstr n h` is true
when `n` occurs contiguously inside `h`. -/
def isSubstr (n : Str) : Str → Bool
  | [] => strPre n []
  | b :: bs => strPre n (b :: bs) || isSubstr n bs

/-- Model of `_has_wildcards` (`search_service.py` line 283):
true when the pattern contains one of the glob metacharacters. -/
def hasWildcards (p : Str) : Bool :=
  p.any fun ch => ch == '*' || ch == '?' || ch == '['

/-- True when the pattern is wrapped as `/body/`: length at least 2 and the
string starts and ends with a slash (`_compile_regex`, line 287). -/
def isWrapped (p : Str) : Bool :=
  decide (2 ≤ p.length) && (p.head? == some '/') && (p.getLast? == some '/')

/-- The body of a `/body/`-wrapped pattern, `pattern[1:-1]`. -/
def regexBody (p : Str) : Str := (p.drop 1).dropLast

/-- Model of `_compile_regex` (`search_service.py` lines 286-292).
`rc` abstracts the external `re.compile` call: it returns `some` matcher
when compilation succeeds and `none` when `re.error` is raised, in which
case `_compile_regex` swallows the error and returns `None`. -/
def compileRegexPat (rc : Str → Option (Str → Bool)) (p : Str) :
    Option (Str → Bool) :=
  if isWrapped p then rc (regexBody p) else none

/-- One compiled pattern category of `run_search`: the lowercased exact
patterns, the lowercased glob patterns, and the compiled regex matchers
(lines 294-387 build six of these). -/
structure CompiledCat where
  exacts : List Str
  globs : List Str
  regexes : List (Str → Bool)

/-- Model of one iteration of the pattern-compilation loops of `run_search`
(lines 297-307 and their five clones): strip the raw pattern, drop it if
empty, otherwise classify it as regex, then glob, then exact. -/
def addPattern (rc : Str → Option (Str → Bool)) (c : CompiledCat) (raw : Str) :
    CompiledCat :=
  let pat := stripStr raw
  if pat.isEmpty then c
  else
    match compileRegexPat rc pat with
    | some rx => { c with regexes := c.regexes ++ [rx] }
    | none =>
        if hasWildcards pat then { c with globs := c.globs ++ [lowerStr pat] }
        else { c with exacts := c.exacts ++ [lowerStr pat] }

/-- Compile a raw pattern list into a category (one compilation loop). -/
def compileCategory (rc : Str → Option (Str → Bool)) (raws : List Str) :
    CompiledCat :=
  raws.foldl (addPattern rc) ⟨[], [], []⟩

/-- The six compiled categories of one query (`run_search` lines 294-387). -/
structure FilterConfig where
  exShow : CompiledCat
  exTitle : CompiledCat
  exDesc : CompiledCat
  incShow : CompiledCat
  incTitle : CompiledCat
  incDesc : CompiledCat

/-- A category with no compiled patterns. -/
def emptyCat : CompiledCat := ⟨[], [], []⟩

/-- The filter configuration compiled from six empty pattern lists. -/
def emptyConfig : FilterConfig :=
  ⟨emptyCat, emptyCat, emptyCat, emptyCat, emptyCat, emptyCat⟩

/-- Whether a category matches a show name, with the show-name semantics of
`run_search`: whole-string equality of the lowercased show name against an
exact pattern, glob match on the lowercased show name (`fn` abstracts
`fnmatch.fnmatch`), or regex search on the original-cased show name. -/
def catHitShow (fn : Str → Str → Bool) (c : CompiledCat) (s : Str) : Bool :=
  c.exacts.contains (lowerStr s) ||
  c.globs.any (fun g => fn (lowerStr s) g) ||
  c.regexes.any (fun rx => rx s)

/-- Whether a category matches a title or description, with the substring
semantics of `run_search`: an exact pattern matches when it occurs as a
substring of the lowercased text; globs and regexes as for shows. -/
def catHitSub (fn : Str → Str → Bool) (c : CompiledCat) (t : Str) : Bool :=
  c.exacts.any (fun p => isSubstr p (lowerStr t)) ||
  c.globs.any (fun g => fn (lowerStr t) g) ||
  c.regexes.any (fun rx => rx t)

/-- Whether a category has at least one compiled pattern (the `or`-guard of
the include blocks, e.g. line 473). -/
def catNonempty (c : CompiledCat) : Bool :=
  !c.exacts.isEmpty || !c.globs.isEmpty || !c.regexes.isEmpty

/-- The filter decision of `run_search` (lines 430-509), translated
branch by branch: the three exclusion blocks each set a skip flag through
guarded tests and `continue` on a match; then each include block rejects
when its category is non-empty and nothing in it matches.  Returns `true`
exactly when the item survives to the upsert step. -/
def acceptItem (fn : Str → Str → Bool) (cfg : FilterConfig)
    (showName title desc : Str) : Bool :=
  let showLower := lowerStr showName
  let titleLower := lowerStr title
  let descLower := lowerStr desc
  let showSkip :=
    (!cfg.exShow.exacts.isEmpty && cfg.exShow.exacts.contains showLower) ||
    (!cfg.exShow.globs.isEmpty && cfg.exShow.globs.any (fun g => fn showLower g)) ||
    (!cfg.exShow.regexes.isEmpty && cfg.exShow.regexes.any (fun rx => rx showName))
  if showSkip then false
  else
    let titleSkip :=
      (!cfg.exTitle.exacts.isEmpty && cfg.exTitle.exacts.any (fun p => isSubstr p titleLower)) ||
      (!cfg.exTitle.globs.isEmpty && cfg.exTitle.globs.any (fun g => fn titleLower g)) ||
      (!cfg.exTitle.regexes.isEmpty && cfg.exTitle.regexes.any (fun rx => rx title))
    if titleSkip then false
    else
      let descSkip :=
        (!cfg.exDesc.exacts.isEmpty && cfg.exDesc.exacts.any (fun p => isSubstr p descLower)) ||
        (!cfg.exDesc.globs.isEmpty && cfg.exDesc.globs.any (fun g => fn descLower g)) ||
        (!cfg.exDesc.regexes.isEmpty && cfg.exDesc.regexes.any (fun rx => rx desc))
      if descSkip then false
      else
        let incShowHit :=
          (!cfg.incShow.exacts.isEmpty && cfg.incShow.exacts.contains showLower) ||
          (!cfg.incShow.globs.isEmpty && cfg.incShow.globs.any (fun g => fn showLower g)) ||
          (!cfg.incShow.regexes.isEmpty && cfg.incShow.regexes.any (fun rx => rx showName))
        if catNonempty cfg.incShow && !incShowHit then false
        else
          let incTitleHit :=
            (!cfg.incTitle.exacts.isEmpty && cfg.incTitle.exacts.any (fun p => isSubstr p titleLower)) ||
            (!cfg.incTitle.globs.isEmpty && cfg.incTitle.globs.any (fun g => fn titleLower g)) ||
            (!cfg.incTitle.regexes.isEmpty && cfg.incTitle.regexes.any (fun rx => rx title))
          if catNonempty cfg.incTitle && !incTitleHit then false
          else
            let incDescHit :=
              (!cfg.incDesc.exacts.isEmpty && cfg.incDesc.exacts.any (fun p => isSubstr p descLower)) ||
              (!cfg.incDesc.globs.isEmpty && cfg.incDesc.globs.any (fun g => fn descLower g)) ||
              (!cfg.incDesc.regexes.isEmpty && cfg.incDesc.regexes.any (fun rx => rx desc))
            if catNonempty cfg.incDesc && !incDescHit then false
            else true

/-- Declarative acceptance following the specification wording: no exclude
category matches, and every non-empty include category matches. -/
def acceptSpec (fn : Str → Str → Bool) (cfg : FilterConfig)
    (showName title desc : Str) : Bool :=
  !(catHitShow fn cfg.exShow showName) &&
  !(catHitSub fn cfg.exTitle title) &&
  !(catHitSub fn cfg.exDesc desc) &&
  (!(catNonempty cfg.incShow) || catHitShow fn cfg.incShow showName) &&
  (!(catNonempty cfg.incTitle) || catHitSub fn cfg.incTitle title) &&
  (!(catNonempty cfg.incDesc) || catHitSub fn cfg.incDesc desc)

/-- A concrete glob-matcher instantiation (matches nothing); used to
instantiate the abstract `fnmatch` parameter in concrete evaluations. -/
def fn0 : Str → Str → Bool := fun _ _ => false

/-- A concrete regex-compiler instantiation under which every body fails to
compile (models `re.compile` raising `re.error` on the given bodies). -/
def rcNone : Str → Option (Str → Bool) := fun _ => none

/-- The raw pattern `/(/`: wrapped as `/body/` with body `(`, which Python's
`re.compile` rejects with `re.error`. -/
def patSlashParen : Str := ['/', '(', '/']

/-! ### Paginated fetcher (`SpotifyClient.search_episodes`, lines 72-143) -/

/-- Result of one page request of the search endpoint, after the
status-code handling: `fail s` models `SpotifyAPIError` raised on a
non-success status `s`; `missing` models a payload without an `episodes`
object (`if not episodes: break`); `ok items total` models a 200 payload. -/
inductive PageResp (α : Type) where
  | fail (status : Nat)
  | missing
  | ok (items : List α) (total : Nat)

/-- The effective page size: `limit = max(1, min(int(limit), 50))`
(`spotify_api.py` line 84). -/
def effLimit (limit : Nat) : Nat := max 1 (min limit 50)

/-- Whether the page-count ceiling has been reached
(`max_pages is not None and pages_retrieved >= max_pages`, line 142). -/
def capReached (maxPages : Option Nat) (pages2 : Nat) : Bool :=
  match maxPages with
  | some p => decide (p ≤ pages2)
  | none => false

/-- The pagination loop of `search_episodes` (lines 87-143), with each page
request abstracted to its handled outcome `page offset`.  Fuel-indexed:
`none` means the loop has not terminated within `fuel` iterations.  On
success, returns the yielded items together with `some status` when the
loop aborted by raising `SpotifyAPIError` after yielding earlier pages.
The three break conditions are checked in source order: empty item list,
`offset >= total`, and the optional page-count ceiling. -/
def fetchLoop {α : Type} (page : Nat → PageResp α) (maxPages : Option Nat) :
    Nat → Nat → Nat → Option (List α × Option Nat)
  | 0, _, _ => none
  | fuel + 1, offset, pages =>
    match page offset with
    | .fail s => some ([], some s)
    | .missing => some ([], none)
    | .ok items total =>
      let offset2 := offset + items.length
      let pages2 := pages + 1
      if items.length = 0 then some (items, none)
      else if total ≤ offset2 then some (items, none)
      else if capReached maxPages pages2 then some (items, none)
      else (fetchLoop page maxPages fuel offset2 pages2).map
        (fun r => (items ++ r.1, r.2))

/-- The full fetcher: clamp the requested limit to the effective page size
and run the pagination loop from offset 0 with no pages retrieved.
`pageAt limit offset` abstracts the provider's handled response to the
request with the given page size and offset. -/
def searchEpisodes {α : Type} (pageAt : Nat → Nat → PageResp α)
    (limit : Nat) (maxPages : Option Nat) (fuel : Nat) :
    Option (List α × Option Nat) :=
  fetchLoop (pageAt (effLimit limit)) maxPages fuel 0 0

/-- A well-behaved provider over the fixed universe `u`: it always reports
`total = u.length` and serves, at each offset, the next page of up to the
requested number of items — full pages until the universe is exhausted and
empty lists thereafter. -/
def goodPageAt {α : Type} (u : List α) : Nat → Nat → PageResp α :=
  fun lim offset => .ok ((u.drop offset).take lim) u.length

/-- A provider that always serves a single item while reporting a total of
100: exhibits the page-cap behaviour for `max_pages = 0`. -/
def onePageAt : Nat → Nat → PageResp Nat := fun _ _ => .ok [0] 100

/-! ### Status-code handling (`spotify_api.py` lines 98-125 and 158-199) -/

/-- The per-request status handling of `search_episodes` (lines 98-125):
`st i` is the status of the `i`-th response issued for this logical page
request.  A 401 triggers a token refresh and one immediate re-issue; a 429
sleeps for the `Retry-After` hint and re-enters the loop (`continue`),
re-issuing the same request without advancing the offset or consuming a
page; any other non-200 status is raised; a 200 returns the payload index.
Fuel-indexed over the retry loop. -/
def searchRequest (st : Nat → Nat) : Nat → Nat → Option (Except Nat Unit)
  | 0, _ => none
  | fuel + 1, i =>
    let s := if st i = 401 then st (i + 1) else st i
    let j := if st i = 401 then i + 2 else i + 1
    if s = 429 then searchRequest st fuel j
    else if s = 200 then some (.ok ())
    else some (.error s)

/-- The per-chunk status handling of `get_episodes` (lines 163-192): a 401
triggers a token refresh and one re-issue; a 429 sleeps and re-issues the
request exactly once (`# retry once after sleeping`); then any non-200
status — including a second consecutive 429 — is raised. -/
def chunkRequest (st : Nat → Nat) : Except Nat Unit :=
  let s1 := if st 0 = 401 then st 1 else st 0
  let j1 := if st 0 = 401 then 2 else 1
  let s2 := if s1 = 429 then st j1 else s1
  if s2 = 200 then .ok () else .error s2

/-- A response stream that answers 429 to every request. -/
def always429 : Nat → Nat := fun _ => 429

/-- A response stream whose first response is 429 and whose later responses
are 500. -/
def st429then500 : Nat → Nat := fun i => if i = 0 then 429 else 500

/-! ### Episode persistence (`run_search` lines 389-617, `db.py` episodes) -/

/-- The mutable metadata columns written by the upsert of `run_search`
(`name`, `show_name`, `release_date`, `description`, `external_url`,
`uri`, `duration_ms`, `raw_data`). -/
structure Meta where
  name : Str
  showName : Str
  releaseDate : Option Str
  description : Option Str
  extUrl : Option Str
  uri : Option Str
  durationMs : Option Nat
  raw : Str
  deriving DecidableEq

/-- One merged search hit as seen by the per-item loop of `run_search`
(line 412 onwards): the metadata extracted by `extract_episode_metadata`
from the detail record when available, else from the simplified hit.
Optional fields model keys that may be absent or `None` in the payload. -/
structure Hit where
  eid : Option Str
  name : Option Str
  showName : Option Str
  releaseDate : Option Str
  description : Option Str
  extUrl : Option Str
  uri : Option Str
  durationMs : Option Nat
  raw : Str
  deriving DecidableEq

/-- One row of the `episodes` table (`db.py` lines 56-72). -/
structure Row where
  qid : Nat
  eid : Str
  meta : Meta
  firstSeen : Nat
  lastSeen : Nat
  deriving DecidableEq

/-- Model of `episode_id = metadata.get("episode_id"); if not episode_id:
continue` (lines 418-420): the identifier is usable only when present and
non-empty (Python truthiness of strings). -/
def extractId (h : Hit) : Option Str :=
  match h.eid with
  | none => none
  | some e => if e.isEmpty then none else some e

/-- The metadata written for a hit, with the `or ""` coercions of lines
423-424 applied to name and show name (the store forbids nulls there) and
the remaining fields stored as extracted. -/
def metaOf (h : Hit) : Meta :=
  ⟨h.name.getD [], h.showName.getD [], h.releaseDate, h.description,
   h.extUrl, h.uri, h.durationMs, h.raw⟩

/-- The show name string the filter sees (line 423). -/
def hitShow (h : Hit) : Str := h.showName.getD []

/-- The title string the filter sees (line 424). -/
def hitTitle (h : Hit) : Str := h.name.getD []

/-- The description string the filter sees (line 425). -/
def hitDesc (h : Hit) : Str := h.description.getD []

/-- Filter decision for a merged hit. -/
def acceptHit (fn : Str → Str → Bool) (cfg : FilterConfig) (h : Hit) : Bool :=
  acceptItem fn cfg (hitShow h) (hitTitle h) (hitDesc h)

/-- The `WHERE query_id = ? AND episode_id = ?` row test (line 513). -/
def rowMatches (qid : Nat) (eid : Str) (r : Row) : Bool :=
  (r.qid == qid) && (r.eid == eid)

/-- The `UPDATE episodes SET ... WHERE id = ?` of lines 518-544, applied to
the row found by the preceding SELECT (the first match): overwrite the
metadata columns and `last_seen_at`, leaving `first_seen_at` and the key
columns untouched. -/
def updateFirst (qid : Nat) (eid : Str) (now : Nat) (m : Meta) :
    List Row → List Row
  | [] => []
  | r :: rs =>
    if rowMatches qid eid r then { r with meta := m, lastSeen := now } :: rs
    else r :: updateFirst qid eid now m rs

/-- Whether a row for `(query_id, episode_id)` exists (the SELECT of
lines 512-515). -/
def hasKey (qid : Nat) (eid : Str) (s : List Row) : Bool :=
  s.any (rowMatches qid eid)

/-- The upsert of lines 512-589: update the existing row, or insert a new
row with `first_seen_at = last_seen_at = now`; the Boolean reports whether
an insert happened (and the episode joins the newly-discovered list). -/
def upsertStep (qid now : Nat) (s : List Row) (eid : Str) (m : Meta) :
    List Row × Bool :=
  if hasKey qid eid s then (updateFirst qid eid now m s, false)
  else (s ++ [⟨qid, eid, m, now, now⟩], true)

/-- The outcome of the per-item loop of one run: the episodes table, the
`processed` and `skipped` counters, and the newly-discovered list. -/
structure RunResult where
  store : List Row
  processed : Nat
  skipped : Nat
  newEps : List (Str × Meta)
  deriving DecidableEq

/-- The per-item loop of `run_search` (lines 412-589): drop hits without a
usable identifier, filter the rest, and upsert every accepted item,
counting skips and acceptances and collecting newly inserted episodes in
order. -/
def runItems (fn : Str → Str → Bool) (cfg : FilterConfig) (qid now : Nat) :
    List Hit → List Row → RunResult
  | [], s => ⟨s, 0, 0, []⟩
  | h :: rest, s =>
    match extractId h with
    | none => runItems fn cfg qid now rest s
    | some eid =>
      if acceptHit fn cfg h then
        let u := upsertStep qid now s eid (metaOf h)
        let r := runItems fn cfg qid now rest u.1
        { r with processed := r.processed + 1,
                 newEps := if u.2 then (eid, metaOf h) :: r.newEps else r.newEps }
      else
        let r := runItems fn cfg qid now rest s
        { r with skipped := r.skipped + 1 }

/-- Model of `_count_episodes_for_query` (lines 259-265): the number of
rows belonging to the query. -/
def countQ (qid : Nat) (s : List Row) : Nat :=
  (s.filter (fun r => r.qid == qid)).length

/-- The `UNIQUE(query_id, episode_id)` invariant of the episodes table. -/
abbrev keysUnique (s : List Row) : Prop :=
  s.Pairwise (fun a b => ¬(a.qid = b.qid ∧ a.eid = b.eid))

/-- The identifiers of the hits a run accepts (passing both the identifier
check and the filter), in order and with multiplicity. -/
def acceptedEids (fn : Str → Str → Bool) (cfg : FilterConfig) :
    List Hit → List Str
  | [] => []
  | h :: rest =>
    match extractId h with
    | none => acceptedEids fn cfg rest
    | some eid =>
      if acceptHit fn cfg h then eid :: acceptedEids fn cfg rest
      else acceptedEids fn cfg rest

/-- Row-wise effect of a refresh run: rows whose key was accepted in the
run keep their identity and `first_seen_at` and get `last_seen_at` set to
the run timestamp; all other rows are exactly unchanged. -/
def rowRel (qid : Nat) (eids : List Str) (t2 : Nat) (a b : Row) : Prop :=
  if a.qid = qid ∧ a.eid ∈ eids then
    b.qid = a.qid ∧ b.eid = a.eid ∧ b.firstSeen = a.firstSeen ∧
    b.lastSeen = t2
  else b = a

/-- A hit with an empty-string identifier (falsy in Python). -/
def hitEmptyId : Hit := ⟨some [], none, none, none, none, none, none, none, []⟩

/-- A hit with no identifier at all. -/
def hitNoId : Hit := ⟨none, none, none, none, none, none, none, none, []⟩

/-- A normal hit with identifier `a` and empty metadata. -/
def hitA : Hit :=
  ⟨some ['a'], some ['x'], some ['s'], none, none, none, none, none, []⟩

/-! ### Commit discipline (`run_search` lines 511-607) -/

/-- One row of the `search_runs` table (`db.py` lines 74-81): query, run
timestamp, `new_count`, `total_results`. -/
structure RunRec where
  qid : Nat
  runAt : Nat
  newCount : Nat
  totalResults : Nat
  deriving DecidableEq

/-- The durable state touched by one run: the `episodes` rows, the
`search_runs` rows, and the query's `last_run`/`updated_at` columns. -/
structure DbState where
  episodes : List Row
  runs : List RunRec
  lastRun : Option Nat
  updatedAt : Option Nat

/-- One statement issued on the SQLite connection during a run: an
uncommitted write (a transformer of the pending transaction state) or
`connection.commit()`. -/
inductive DbOp where
  | write (f : DbState → DbState)
  | commit

/-- Whether a statement is the commit. -/
def DbOp.isCommit : DbOp → Bool
  | .commit => true
  | .write _ => false

/-- Executing a statement prefix: writes act on the pending transaction
state `p` (SQLite statements inside a transaction see their own prior
writes); a commit publishes the pending state durably.  The result is the
durable state after the executed statements — stopping before the end
(a failure aborting the run) simply abandons the pending state. -/
def execTrace : List DbOp → DbState → DbState → DbState
  | [], d, _ => d
  | .write f :: ops, d, p => execTrace ops d (f p)
  | .commit :: ops, _, p => execTrace ops p p

/-- The write issued for one hit of the per-item loop: accepted hits with a
usable identifier upsert their episode row; all other hits issue no
statement. -/
def hitOp (fn : Str → Str → Bool) (cfg : FilterConfig) (qid now : Nat)
    (h : Hit) : Option (DbState → DbState) :=
  match extractId h with
  | none => none
  | some eid =>
    if acceptHit fn cfg h then
      some (fun st =>
        { st with episodes := (upsertStep qid now st.episodes eid (metaOf h)).1 })
    else none

/-- The run-record insert of `run_search` lines 591-602, with the counters
computed by the in-memory loop over the initial episodes table `s0`. -/
def runRecOp (fn : Str → Str → Bool) (cfg : FilterConfig) (qid now : Nat)
    (hits : List Hit) (s0 : List Row) : DbState → DbState :=
  fun st => { st with runs := st.runs ++
    [⟨qid, now, (runItems fn cfg qid now hits s0).newEps.length,
      (runItems fn cfg qid now hits s0).processed⟩] }

/-- The query `last_run`/`updated_at` update of lines 603-606. -/
def lastRunOp (now : Nat) : DbState → DbState :=
  fun st => { st with lastRun := some now, updatedAt := some now }

/-- The statement trace of one run of `run_search` over the initial
episodes table `s0`: the per-item upserts, then the run-record insert, the
query update, and the single `connection.commit()` of line 607. -/
def runTrace (fn : Str → Str → Bool) (cfg : FilterConfig) (qid now : Nat)
    (hits : List Hit) (s0 : List Row) : List DbOp :=
  ((hits.filterMap (hitOp fn cfg qid now)) ++
    [runRecOp fn cfg qid now hits s0, lastRunOp now]).map DbOp.write ++
  [DbOp.commit]

/-! ## Theorems -/

/-- Guard elimination: the non-emptiness guard in front of an `any` test is
redundant. -/
theorem guard_any {α : Type} (l : List α) (p : α → Bool) :
    (!l.isEmpty && l.any p) = l.any p := by
  cases l <;> simp

/-- Guard elimination: the non-emptiness guard in front of a `contains` test
is redundant. -/
theorem guard_contains (l : List Str) (a : Str) :
    (!l.isEmpty && l.contains a) = l.contains a := by
  cases l <;> simp

/-- Propositional combinator underlying the filter chain: the sequence of
short-circuit vetoes equals the conjunctive normal form. -/
theorem accept_combinator : ∀ (A B C n1 m1 n2 m2 n3 m3 : Bool),
    (if A then false else if B then false else if C then false else
     if n1 && !m1 then false else if n2 && !m2 then false else
     if n3 && !m3 then false else true) =
    (!A && !B && !C && (!n1 || m1) && (!n2 || m2) && (!n3 || m3)) := by
  decide

/-- C1: the imperative filter chain of `run_search` accepts an item exactly
when no exclude pattern of any kind matches it and every non-empty include
category has at least one matching pattern; with all six pattern lists
empty, every item is accepted. -/
theorem filter_accept_iff (fn : Str → Str → Bool) (cfg : FilterConfig)
    (showName title desc : Str) :
    acceptItem fn cfg showName title desc = acceptSpec fn cfg showName title desc ∧
    acceptItem fn emptyConfig showName title desc = true := by
  constructor
  · simp only [acceptItem, acceptSpec, catHitShow, catHitSub, catNonempty,
      guard_any, guard_contains]
    exact accept_combinator _ _ _ _ _ _ _ _ _
  · simp [acceptItem, emptyConfig, emptyCat, catNonempty]

/-- The Boolean prefix test agrees with `List.IsPrefix`. -/
theorem strPre_iff (n h : Str) : strPre n h = true ↔ n <+: h := by
  induction n generalizing h with
  | nil => simp [strPre]
  | cons a as ih =>
    cases h with
    | nil => simp [strPre]
    | cons b bs => simp [strPre, List.cons_prefix_cons, ih]

/-- The Boolean substring test agrees with `List.IsInfix` (Python `in`). -/
theorem isSubstr_iff (n h : Str) : isSubstr n h = true ↔ n <:+: h := by
  induction h with
  | nil => simp [isSubstr, strPre_iff]
  | cons b bs ih => simp [isSubstr, strPre_iff, ih, List.infix_cons_iff]

/-- Compiling a single pattern that is neither a compilable `/regex/` nor a
glob yields a single lowercased exact pattern. -/
theorem compile_single_exact (rc : Str → Option (Str → Bool)) (p : Str)
    (h1 : stripStr p ≠ [])
    (h2 : compileRegexPat rc (stripStr p) = none)
    (h3 : hasWildcards (stripStr p) = false) :
    compileCategory rc [p] = ⟨[lowerStr (stripStr p)], [], []⟩ := by
  have hne : (stripStr p).isEmpty = false := by
    cases hs : stripStr p with
    | nil => exact absurd hs h1
    | cons c cs => simp [hs]
  simp [compileCategory, addPattern, hne, h2, h3]

/-- C7: a non-glob, non-regex pattern matches a show only through
case-insensitive whole-string equality, and matches a title or description
whenever it occurs case-insensitively as a substring. -/
theorem exact_pattern_semantics (rc : Str → Option (Str → Bool)) (p : Str)
    (fn : Str → Str → Bool)
    (h1 : stripStr p ≠ [])
    (h2 : compileRegexPat rc (stripStr p) = none)
    (h3 : hasWildcards (stripStr p) = false) :
    (∀ s, catHitShow fn (compileCategory rc [p]) s = true ↔
      lowerStr s = lowerStr (stripStr p)) ∧
    (∀ t, catHitSub fn (compileCategory rc [p]) t = true ↔
      lowerStr (stripStr p) <:+: lowerStr t) := by
  rw [compile_single_exact rc p h1 h2 h3]
  constructor
  · intro s
    simp [catHitShow]
  · intro t
    simp [catHitSub, isSubstr_iff]

/-- Witness for `exact_pattern_semantics`: the exact pattern `Foo` matches
the show named `FOO` case-insensitively. -/
theorem exact_pattern_semantics_spot :
    catHitShow fn0 (compileCategory rcNone [['F', 'o', 'o']]) ['F', 'O', 'O'] = true :=
  ((exact_pattern_semantics rcNone ['F', 'o', 'o'] fn0 (by decide) rfl
    (by decide)).1 ['F', 'O', 'O']).2 (by decide)

/-- C2 counterexample: the pattern `/(/` is wrapped as `/body/` and its body
`(` fails regex compilation, yet the compiled pattern is not inert — it
matches the show literally named `/(/` and causes its exclusion. -/
theorem failed_regex_not_inert :
    (isWrapped patSlashParen = true ∧ rcNone (regexBody patSlashParen) = none) ∧
    catHitShow fn0 (compileCategory rcNone [patSlashParen]) patSlashParen = true ∧
    acceptItem fn0
      { emptyConfig with exShow := compileCategory rcNone [patSlashParen] }
      patSlashParen [] [] = false :=
  ⟨⟨by decide, rfl⟩, by decide, by decide⟩

/-- C2 (amended): when a `/body/`-wrapped pattern's body fails regex
compilation, compilation never raises; no regex matcher is produced, and the
pattern instead falls through to the glob branch (if it contains wildcard
characters) or to the exact branch, over the full wrapped text. -/
theorem failed_regex_fallthrough (rc : Str → Option (Str → Bool)) (p : Str)
    (hw : isWrapped (stripStr p) = true)
    (hrc : rc (regexBody (stripStr p)) = none) :
    compileCategory rc [p] =
      (if hasWildcards (stripStr p) then
        ({ exacts := [], globs := [lowerStr (stripStr p)], regexes := [] } : CompiledCat)
      else
        { exacts := [lowerStr (stripStr p)], globs := [], regexes := [] }) := by
  have hlen : 2 ≤ (stripStr p).length := by
    have := hw
    simp only [isWrapped, Bool.and_eq_true, decide_eq_true_eq] at this
    exact this.1.1
  have hne : (stripStr p).isEmpty = false := by
    cases hs : stripStr p with
    | nil => rw [hs] at hlen; simp at hlen
    | cons c cs => simp [hs]
  have h2 : compileRegexPat rc (stripStr p) = none := by
    simp [compileRegexPat, hw, hrc]
  cases hW : hasWildcards (stripStr p) with
  | true => simp [compileCategory, addPattern, hne, h2, hW]
  | false => simp [compileCategory, addPattern, hne, h2, hW]

/-- Witness for `failed_regex_fallthrough` at the concrete pattern `/(/`. -/
theorem failed_regex_fallthrough_spot :
    compileCategory rcNone [patSlashParen] =
      { exacts := [lowerStr (stripStr patSlashParen)], globs := [], regexes := [] } := by
  have h := failed_regex_fallthrough rcNone patSlashParen (by decide) rfl
  simpa using h

/-- The pagination loop over the well-behaved provider yields, from any
offset within the universe, exactly the remaining items. -/
theorem fetchLoop_good {α : Type} (u : List α) (eff : Nat) (heff : 1 ≤ eff) :
    ∀ fuel offset pages, offset ≤ u.length → u.length + 1 - offset ≤ fuel →
    fetchLoop (goodPageAt u eff) none fuel offset pages =
      some (u.drop offset, none) := by
  intro fuel
  induction fuel with
  | zero => intro offset pages hoff hfuel; omega
  | succ fuel ih =>
    intro offset pages hoff hfuel
    by_cases hend : u.length = offset
    · have hdrop : u.drop offset = [] := List.drop_eq_nil_of_le (by omega)
      simp [fetchLoop, goodPageAt, hdrop]
    · have hlt : offset < u.length := by omega
      have hlen_items : ((u.drop offset).take eff).length =
          min eff (u.length - offset) := by
        simp [List.length_take, List.length_drop]
      by_cases hlast : u.length ≤ offset + min eff (u.length - offset)
      · have hge : (u.drop offset).length ≤ eff := by
          simp only [List.length_drop]; omega
        have htake : (u.drop offset).take eff = u.drop offset :=
          List.take_of_length_le hge
        have hlen0 : ¬ (((u.drop offset).take eff).length = 0) := by
          rw [hlen_items]; omega
        have hbreak : u.length ≤ offset + ((u.drop offset).take eff).length := by
          rw [hlen_items]; omega
        simp only [fetchLoop, goodPageAt]
        rw [if_neg hlen0, if_pos hbreak, htake]
      · have hmineff : min eff (u.length - offset) = eff := by omega
        have hlen_eff : ((u.drop offset).take eff).length = eff := by
          rw [hlen_items, hmineff]
        have hlen0 : ¬ (((u.drop offset).take eff).length = 0) := by
          rw [hlen_eff]; omega
        have hnobreak : ¬ (u.length ≤ offset + ((u.drop offset).take eff).length) := by
          rw [hlen_eff]; omega
        have hrec := ih (offset + eff) (pages + 1) (by omega) (by omega)
        have hsplit : (u.drop offset).take eff ++ (u.drop (offset + eff)) =
            u.drop offset := by
          conv_rhs => rw [← List.take_append_drop eff (u.drop offset)]
          rw [List.drop_drop]
        simp only [fetchLoop, goodPageAt]
        rw [if_neg hlen0, if_neg hnobreak]
        simp only [capReached, Bool.false_eq_true, if_false]
        rw [hlen_eff, hrec]
        simp [hsplit]

/-- C5: over a provider that reports `total = T` and serves full pages (of
the effective page size) until `T` items have been served and empty lists
thereafter, the fetcher with no page cap terminates within `T + 1` pages
and yields exactly the `T` items of the universe. -/
theorem pagination_yields_total {α : Type} (u : List α) (limit fuel : Nat)
    (hfuel : u.length + 1 ≤ fuel) :
    searchEpisodes (goodPageAt u) limit none fuel = some (u, none) := by
  have heff : 1 ≤ effLimit limit := Nat.le_max_left 1 _
  have h := fetchLoop_good u (effLimit limit) heff fuel 0 0 (Nat.zero_le _)
    (by omega)
  simpa [searchEpisodes] using h

/-- Witness for `pagination_yields_total`: three items with page size 2 are
yielded in full within four loop iterations. -/
theorem pagination_yields_total_spot :
    searchEpisodes (goodPageAt [1, 2, 3]) 2 none 4 = some ([1, 2, 3], none) :=
  pagination_yields_total [1, 2, 3] 2 4 (by decide)

/-- Bound on the items yielded by the pagination loop under a page cap:
when every page holds at most `eff` items and fewer than `P` pages have
been retrieved, at most `(P - pages) * eff` further items are yielded. -/
theorem fetchLoop_cap {α : Type} (page : Nat → PageResp α) (eff P : Nat)
    (hpage : ∀ o items total, page o = .ok items total → items.length ≤ eff) :
    ∀ fuel offset pages out e, pages < P →
    fetchLoop page (some P) fuel offset pages = some (out, e) →
    out.length ≤ (P - pages) * eff := by
  intro fuel
  induction fuel with
  | zero => intro offset pages out e hP h; simp [fetchLoop] at h
  | succ fuel ih =>
    intro offset pages out e hP h
    have hone : eff ≤ (P - pages) * eff := by
      have h1 : 1 ≤ P - pages := by omega
      calc eff = 1 * eff := (Nat.one_mul eff).symm
        _ ≤ (P - pages) * eff := Nat.mul_le_mul_right eff h1
    simp only [fetchLoop] at h
    cases hpg : page offset with
    | fail s => rw [hpg] at h; simp at h; rw [h.1]; simp
    | missing => rw [hpg] at h; simp at h; rw [h.1]; simp
    | ok items total =>
      rw [hpg] at h
      dsimp only [] at h
      have hitems : items.length ≤ eff := hpage _ _ _ hpg
      by_cases h0 : items.length = 0
      · rw [if_pos h0] at h
        simp at h
        rw [← h.1]
        omega
      · rw [if_neg h0] at h
        by_cases h1 : total ≤ offset + items.length
        · rw [if_pos h1] at h
          simp at h
          rw [← h.1]
          omega
        · rw [if_neg h1] at h
          by_cases h2 : capReached (some P) (pages + 1) = true
          · rw [if_pos h2] at h
            simp at h
            rw [← h.1]
            omega
          · rw [if_neg h2] at h
            have hlt : pages + 1 < P := by
              simp [capReached] at h2
              omega
            cases hr : fetchLoop page (some P) fuel (offset + items.length)
                (pages + 1) with
            | none => rw [hr] at h; simp at h
            | some r =>
              rw [hr] at h
              simp at h
              have hrest := ih (offset + items.length) (pages + 1) r.1 r.2 hlt
                (by rw [hr])
              have hsub : P - pages = (P - (pages + 1)) + 1 := by omega
              rw [← h.1, List.length_append, hsub, Nat.succ_mul]
              omega

/-- C6 (amended): with a page cap `P ≥ 1`, and a provider whose pages each
hold at most the effective page size of items, the fetcher yields at most
`P * limit` items even when the reported total is larger.  (With `P = 0`
the code still fetches and yields one page before checking the cap; see the
counterexample to the unamended claim.) -/
theorem page_cap_enforced {α : Type} (pageAt : Nat → Nat → PageResp α)
    (limit P fuel : Nat) (out : List α) (e : Option Nat)
    (hP : 1 ≤ P)
    (hpage : ∀ o items total, pageAt (effLimit limit) o = .ok items total →
      items.length ≤ effLimit limit)
    (h : searchEpisodes pageAt limit (some P) fuel = some (out, e)) :
    out.length ≤ P * effLimit limit := by
  have := fetchLoop_cap (pageAt (effLimit limit)) (effLimit limit) P hpage
    fuel 0 0 out e (by omega) h
  simpa using this

/-- Witness for `page_cap_enforced` on a provider serving empty pages. -/
theorem page_cap_enforced_spot :
    (([] : List Nat).length ≤ 1 * effLimit 50) :=
  page_cap_enforced (fun _ _ => PageResp.ok ([] : List Nat) 0) 50 1 1 [] none
    (by decide)
    (fun o items total h => by cases h; simp)
    rfl

/-- C6 counterexample: with `max_pages = 0` the loop yields the first page
before checking the cap, so more than `0 * limit = 0` items are yielded. -/
theorem page_cap_zero_counterexample :
    searchEpisodes onePageAt 50 (some 0) 3 = some ([0], none) ∧
    0 * effLimit 50 < ([0] : List Nat).length := by
  constructor
  · rfl
  · decide

/-- C4 (amended): the paginated search fetcher never surfaces a 429 as an
error — it re-issues the same request (without advancing the offset or
consuming a page) until a different status arrives; the batch detail
fetcher instead re-issues exactly once after a 429, and then surfaces
whatever status the retry returns — including a second 429 — as final. -/
theorem rate_limit_handling :
    (∀ (st : Nat → Nat) (fuel i s : Nat),
        searchRequest st fuel i = some (.error s) → s ≠ 429) ∧
    (∀ st : Nat → Nat, st 0 ≠ 401 → st 0 = 429 →
        chunkRequest st = (if st 1 = 200 then .ok () else .error (st 1))) := by
  constructor
  · intro st fuel
    induction fuel with
    | zero => intro i s h; simp [searchRequest] at h
    | succ fuel ih =>
      intro i s h
      simp only [searchRequest] at h
      by_cases h429 : (if st i = 401 then st (i + 1) else st i) = 429
      · rw [if_pos h429] at h
        exact ih _ _ h
      · rw [if_neg h429] at h
        by_cases h200 : (if st i = 401 then st (i + 1) else st i) = 200
        · rw [if_pos h200] at h; simp at h
        · rw [if_neg h200] at h
          simp at h
          intro hs
          rw [hs] at h
          exact h429 h
  · intro st h401 h429
    simp [chunkRequest, h401, h429]

/-- Witness for `rate_limit_handling`: a first 429 on a batch chunk is
retried once, and the 500 returned by the retry is surfaced. -/
theorem rate_limit_handling_spot :
    chunkRequest st429then500 = .error 500 := by
  have h := rate_limit_handling.2 st429then500 (by decide) rfl
  simpa [st429then500] using h

/-- C4 counterexample: two consecutive 429 responses on a batch chunk make
`get_episodes` raise, surfacing the 429 to the caller as an error. -/
theorem chunk_429_surfaced :
    chunkRequest always429 = .error 429 := by
  rfl

/-- C9: a fetched hit whose extracted metadata lacks a usable identifier is
silently dropped — the run result (store, counters, new list) is the same
as if the hit were absent; concretely, such hits make
`processed + skipped` fall short of the number of fetched hits. -/
theorem missing_id_dropped :
    (∀ (fn : Str → Str → Bool) (cfg : FilterConfig) (qid now : Nat)
        (h : Hit) (rest : List Hit) (s : List Row),
        extractId h = none →
        runItems fn cfg qid now (h :: rest) s = runItems fn cfg qid now rest s) ∧
    ((runItems fn0 emptyConfig 1 5 [hitEmptyId] []).processed +
        (runItems fn0 emptyConfig 1 5 [hitEmptyId] []).skipped = 0 ∧
      0 < ([hitEmptyId] : List Hit).length) := by
  refine ⟨?_, by decide, by decide⟩
  intro fn cfg qid now h rest s hid
  simp [runItems, hid]

/-- Witness for `missing_id_dropped`: a hit with no identifier contributes
nothing to the run. -/
theorem missing_id_dropped_spot :
    runItems fn0 emptyConfig 2 9 [hitNoId, hitA] [] =
      runItems fn0 emptyConfig 2 9 [hitA] [] :=
  missing_id_dropped.1 fn0 emptyConfig 2 9 hitNoId [hitA] [] rfl

/-- Unfolding the per-item loop over a hit without a usable identifier. -/
theorem runItems_cons_none (fn : Str → Str → Bool) (cfg : FilterConfig)
    (qid now : Nat) (h : Hit) (rest : List Hit) (s : List Row)
    (hid : extractId h = none) :
    runItems fn cfg qid now (h :: rest) s = runItems fn cfg qid now rest s := by
  simp [runItems, hid]

/-- Unfolding the per-item loop over a rejected hit. -/
theorem runItems_cons_reject (fn : Str → Str → Bool) (cfg : FilterConfig)
    (qid now : Nat) (h : Hit) (rest : List Hit) (s : List Row) (eid : Str)
    (hid : extractId h = some eid) (hacc : acceptHit fn cfg h = false) :
    runItems fn cfg qid now (h :: rest) s =
      ⟨(runItems fn cfg qid now rest s).store,
       (runItems fn cfg qid now rest s).processed,
       (runItems fn cfg qid now rest s).skipped + 1,
       (runItems fn cfg qid now rest s).newEps⟩ := by
  simp [runItems, hid, hacc]

/-- Unfolding the per-item loop over an accepted hit whose key already
exists: the existing row is updated in place. -/
theorem runItems_cons_update (fn : Str → Str → Bool) (cfg : FilterConfig)
    (qid now : Nat) (h : Hit) (rest : List Hit) (s : List Row) (eid : Str)
    (hid : extractId h = some eid) (hacc : acceptHit fn cfg h = true)
    (hk : hasKey qid eid s = true) :
    runItems fn cfg qid now (h :: rest) s =
      ⟨(runItems fn cfg qid now rest (updateFirst qid eid now (metaOf h) s)).store,
       (runItems fn cfg qid now rest (updateFirst qid eid now (metaOf h) s)).processed + 1,
       (runItems fn cfg qid now rest (updateFirst qid eid now (metaOf h) s)).skipped,
       (runItems fn cfg qid now rest (updateFirst qid eid now (metaOf h) s)).newEps⟩ := by
  simp [runItems, hid, hacc, upsertStep, hk]

/-- Unfolding the per-item loop over an accepted hit whose key is absent:
a fresh row is appended and the episode joins the newly-discovered list. -/
theorem runItems_cons_insert (fn : Str → Str → Bool) (cfg : FilterConfig)
    (qid now : Nat) (h : Hit) (rest : List Hit) (s : List Row) (eid : Str)
    (hid : extractId h = some eid) (hacc : acceptHit fn cfg h = true)
    (hk : hasKey qid eid s = false) :
    runItems fn cfg qid now (h :: rest) s =
      ⟨(runItems fn cfg qid now rest (s ++ [⟨qid, eid, metaOf h, now, now⟩])).store,
       (runItems fn cfg qid now rest (s ++ [⟨qid, eid, metaOf h, now, now⟩])).processed + 1,
       (runItems fn cfg qid now rest (s ++ [⟨qid, eid, metaOf h, now, now⟩])).skipped,
       (eid, metaOf h) ::
         (runItems fn cfg qid now rest (s ++ [⟨qid, eid, metaOf h, now, now⟩])).newEps⟩ := by
  simp [runItems, hid, hacc, upsertStep, hk]

/-- Counting rows for a query is unchanged by the metadata update. -/
theorem countQ_updateFirst (q qid : Nat) (e : Str) (now : Nat) (m : Meta) :
    ∀ s : List Row, countQ q (updateFirst qid e now m s) = countQ q s := by
  intro s
  induction s with
  | nil => rfl
  | cons r rs ih =>
    simp only [updateFirst]
    by_cases hm : rowMatches qid e r = true
    · rw [if_pos hm]
      simp only [countQ, List.filter_cons]
      split <;> simp
    · rw [if_neg hm]
      simp only [countQ, List.filter_cons] at ih ⊢
      split <;> simp [ih]

/-- Counting rows over an appended singleton. -/
theorem countQ_append_single (q : Nat) (s : List Row) (r : Row) :
    countQ q (s ++ [r]) = countQ q s + (if r.qid == q then 1 else 0) := by
  simp only [countQ, List.filter_append, List.filter_cons, List.filter_nil,
    List.length_append]
  split <;> simp

/-- Key presence is invariant under the metadata update. -/
theorem hasKey_updateFirst (q : Nat) (e : Str) (qid2 : Nat) (e2 : Str)
    (now : Nat) (m : Meta) :
    ∀ s : List Row, hasKey q e (updateFirst qid2 e2 now m s) = hasKey q e s := by
  intro s
  induction s with
  | nil => rfl
  | cons r rs ih =>
    simp only [updateFirst]
    by_cases hm : rowMatches qid2 e2 r = true
    · rw [if_pos hm]
      simp [hasKey, rowMatches]
    · rw [if_neg hm]
      simp only [hasKey, List.any_cons] at ih ⊢
      rw [ih]

/-- Key presence over an appended singleton. -/
theorem hasKey_append (q : Nat) (e : Str) (s : List Row) (r : Row) :
    hasKey q e (s ++ [r]) = (hasKey q e s || rowMatches q e r) := by
  simp [hasKey]

/-- Key presence is preserved across the per-item loop. -/
theorem hasKey_runItems (fn : Str → Str → Bool) (cfg : FilterConfig)
    (qid now : Nat) (q : Nat) (e : Str) :
    ∀ (hits : List Hit) (s : List Row), hasKey q e s = true →
    hasKey q e (runItems fn cfg qid now hits s).store = true := by
  intro hits
  induction hits with
  | nil => intro s hs; exact hs
  | cons h rest ih =>
    intro s hs
    cases hid : extractId h with
    | none =>
      rw [runItems_cons_none fn cfg qid now h rest s hid]
      exact ih s hs
    | some eid =>
      cases hacc : acceptHit fn cfg h with
      | false =>
        rw [runItems_cons_reject fn cfg qid now h rest s eid hid hacc]
        exact ih s hs
      | true =>
        cases hk : hasKey qid eid s with
        | true =>
          rw [runItems_cons_update fn cfg qid now h rest s eid hid hacc hk]
          exact ih _ (by rw [hasKey_updateFirst]; exact hs)
        | false =>
          rw [runItems_cons_insert fn cfg qid now h rest s eid hid hacc hk]
          exact ih _ (by rw [hasKey_append, hs]; rfl)

/-- An identifier already present in the store never reappears in the
newly-discovered list. -/
theorem newEps_fresh (fn : Str → Str → Bool) (cfg : FilterConfig)
    (qid now : Nat) (e : Str) :
    ∀ (hits : List Hit) (s : List Row), hasKey qid e s = true →
    e ∉ ((runItems fn cfg qid now hits s).newEps.map Prod.fst) := by
  intro hits
  induction hits with
  | nil => intro s hs; simp [runItems]
  | cons h rest ih =>
    intro s hs
    cases hid : extractId h with
    | none =>
      rw [runItems_cons_none fn cfg qid now h rest s hid]
      exact ih s hs
    | some eid =>
      cases hacc : acceptHit fn cfg h with
      | false =>
        rw [runItems_cons_reject fn cfg qid now h rest s eid hid hacc]
        exact ih s hs
      | true =>
        cases hk : hasKey qid eid s with
        | true =>
          rw [runItems_cons_update fn cfg qid now h rest s eid hid hacc hk]
          exact ih _ (by rw [hasKey_updateFirst]; exact hs)
        | false =>
          rw [runItems_cons_insert fn cfg qid now h rest s eid hid hacc hk]
          have hne : e ≠ eid := by
            intro hcontra
            rw [hcontra] at hs
            rw [hs] at hk
            cases hk
          have hrest := ih (s ++ [⟨qid, eid, metaOf h, now, now⟩])
            (by rw [hasKey_append, hs]; rfl)
          dsimp only
          simp only [List.map_cons, List.mem_cons]
          rintro (hcase | hcase)
          · exact hne hcase
          · exact hrest hcase

/-- The stored-row count for the query grows by exactly the length of the
newly-discovered list. -/
theorem runItems_countQ (fn : Str → Str → Bool) (cfg : FilterConfig)
    (qid now : Nat) :
    ∀ (hits : List Hit) (s : List Row),
    countQ qid (runItems fn cfg qid now hits s).store =
      countQ qid s + (runItems fn cfg qid now hits s).newEps.length := by
  intro hits
  induction hits with
  | nil => intro s; simp [runItems]
  | cons h rest ih =>
    intro s
    cases hid : extractId h with
    | none =>
      rw [runItems_cons_none fn cfg qid now h rest s hid]
      exact ih s
    | some eid =>
      cases hacc : acceptHit fn cfg h with
      | false =>
        rw [runItems_cons_reject fn cfg qid now h rest s eid hid hacc]
        exact ih s
      | true =>
        cases hk : hasKey qid eid s with
        | true =>
          rw [runItems_cons_update fn cfg qid now h rest s eid hid hacc hk]
          dsimp only
          rw [ih, countQ_updateFirst]
        | false =>
          rw [runItems_cons_insert fn cfg qid now h rest s eid hid hacc hk]
          dsimp only
          rw [ih, countQ_append_single]
          simp only [List.length_cons, beq_self_eq_true, if_true]
          omega

/-- The newly-discovered identifiers of one run are pairwise distinct. -/
theorem runItems_newEps_distinct (fn : Str → Str → Bool) (cfg : FilterConfig)
    (qid now : Nat) :
    ∀ (hits : List Hit) (s : List Row),
    ((runItems fn cfg qid now hits s).newEps.map Prod.fst).Pairwise (· ≠ ·) := by
  intro hits
  induction hits with
  | nil => intro s; simp [runItems]
  | cons h rest ih =>
    intro s
    cases hid : extractId h with
    | none =>
      rw [runItems_cons_none fn cfg qid now h rest s hid]
      exact ih s
    | some eid =>
      cases hacc : acceptHit fn cfg h with
      | false =>
        rw [runItems_cons_reject fn cfg qid now h rest s eid hid hacc]
        exact ih s
      | true =>
        cases hk : hasKey qid eid s with
        | true =>
          rw [runItems_cons_update fn cfg qid now h rest s eid hid hacc hk]
          exact ih _
        | false =>
          rw [runItems_cons_insert fn cfg qid now h rest s eid hid hacc hk]
          dsimp only
          simp only [List.map_cons]
          refine List.Pairwise.cons ?_ (ih _)
          intro x hx heq
          have hfresh := newEps_fresh fn cfg qid now eid rest
            (s ++ [⟨qid, eid, metaOf h, now, now⟩])
            (by rw [hasKey_append]; simp [rowMatches])
          subst heq
          exact hfresh hx

/-- C10: after a run, the stored-row count for the query equals the count
before the run plus the number of newly-discovered episodes, and each
distinct identifier yields at most one insert (the newly-discovered
identifiers are pairwise distinct) even when the same identifier recurs
among the fetched hits. -/
theorem count_equation (fn : Str → Str → Bool) (cfg : FilterConfig)
    (qid now : Nat) (hits : List Hit) (s : List Row) :
    countQ qid (runItems fn cfg qid now hits s).store =
      countQ qid s + (runItems fn cfg qid now hits s).newEps.length ∧
    ((runItems fn cfg qid now hits s).newEps.map Prod.fst).Pairwise (· ≠ ·) :=
  ⟨runItems_countQ fn cfg qid now hits s,
   runItems_newEps_distinct fn cfg qid now hits s⟩

/-- Every row of the updated store has the key of some original row. -/
theorem mem_updateFirst_key (qid : Nat) (e : Str) (now : Nat) (m : Meta) :
    ∀ (s : List Row) (a : Row), a ∈ updateFirst qid e now m s →
    ∃ a0 ∈ s, a.qid = a0.qid ∧ a.eid = a0.eid := by
  intro s
  induction s with
  | nil => intro a ha; simp [updateFirst] at ha
  | cons r rs ih =>
    intro a ha
    simp only [updateFirst] at ha
    by_cases hm : rowMatches qid e r = true
    · rw [if_pos hm] at ha
      rcases List.mem_cons.mp ha with h1 | h1
      · subst h1
        exact ⟨r, List.mem_cons_self r rs, rfl, rfl⟩
      · exact ⟨a, List.mem_cons.mpr (Or.inr h1), rfl, rfl⟩
    · rw [if_neg hm] at ha
      rcases List.mem_cons.mp ha with h1 | h1
      · subst h1
        exact ⟨a, List.mem_cons_self a rs, rfl, rfl⟩
      · obtain ⟨a0, ha0, hkey⟩ := ih a h1
        exact ⟨a0, List.mem_cons.mpr (Or.inr ha0), hkey⟩

/-- The metadata update preserves key uniqueness. -/
theorem keysUnique_updateFirst (qid : Nat) (e : Str) (now : Nat) (m : Meta) :
    ∀ s : List Row, keysUnique s → keysUnique (updateFirst qid e now m s) := by
  intro s
  induction s with
  | nil => intro h; exact h
  | cons r rs ih =>
    intro hu
    rcases List.pairwise_cons.mp hu with ⟨h1, h2⟩
    simp only [updateFirst]
    by_cases hm : rowMatches qid e r = true
    · rw [if_pos hm]
      refine List.pairwise_cons.mpr ⟨?_, h2⟩
      intro a ha
      simpa using h1 a ha
    · rw [if_neg hm]
      refine List.pairwise_cons.mpr ⟨?_, ih h2⟩
      intro a ha
      obtain ⟨a0, ha0, hq, he⟩ := mem_updateFirst_key qid e now m rs a ha
      rw [hq, he]
      exact h1 a0 ha0

/-- Appending a row with an absent key preserves key uniqueness. -/
theorem keysUnique_append (qid : Nat) (e : Str) (m : Meta) (now : Nat)
    (s : List Row) (hu : keysUnique s) (hk : hasKey qid e s = false) :
    keysUnique (s ++ [⟨qid, e, m, now, now⟩]) := by
  refine List.pairwise_append.mpr ⟨hu, List.pairwise_singleton _ _, ?_⟩
  intro a ha b hb
  simp only [List.mem_singleton] at hb
  subst hb
  intro hcon
  have hmatch : rowMatches qid e a = true := by
    simp [rowMatches, hcon.1, hcon.2]
  have htrue : hasKey qid e s = true := by
    simp only [hasKey, List.any_eq_true]
    exact ⟨a, ha, hmatch⟩
  rw [hk] at htrue
  cases htrue

/-- The per-item loop preserves key uniqueness. -/
theorem keysUnique_runItems (fn : Str → Str → Bool) (cfg : FilterConfig)
    (qid now : Nat) :
    ∀ (hits : List Hit) (s : List Row), keysUnique s →
    keysUnique (runItems fn cfg qid now hits s).store := by
  intro hits
  induction hits with
  | nil => intro s hu; exact hu
  | cons h rest ih =>
    intro s hu
    cases hid : extractId h with
    | none =>
      rw [runItems_cons_none fn cfg qid now h rest s hid]
      exact ih s hu
    | some eid =>
      cases hacc : acceptHit fn cfg h with
      | false =>
        rw [runItems_cons_reject fn cfg qid now h rest s eid hid hacc]
        exact ih s hu
      | true =>
        cases hk : hasKey qid eid s with
        | true =>
          rw [runItems_cons_update fn cfg qid now h rest s eid hid hacc hk]
          exact ih _ (keysUnique_updateFirst qid eid now (metaOf h) s hu)
        | false =>
          rw [runItems_cons_insert fn cfg qid now h rest s eid hid hacc hk]
          exact ih _ (keysUnique_append qid eid (metaOf h) now s hu hk)

/-- Unfolding the accepted identifiers over a hit without an identifier. -/
theorem acceptedEids_cons_none (fn : Str → Str → Bool) (cfg : FilterConfig)
    (h : Hit) (rest : List Hit) (hid : extractId h = none) :
    acceptedEids fn cfg (h :: rest) = acceptedEids fn cfg rest := by
  simp [acceptedEids, hid]

/-- Unfolding the accepted identifiers over a rejected hit. -/
theorem acceptedEids_cons_reject (fn : Str → Str → Bool) (cfg : FilterConfig)
    (h : Hit) (rest : List Hit) (eid : Str) (hid : extractId h = some eid)
    (hacc : acceptHit fn cfg h = false) :
    acceptedEids fn cfg (h :: rest) = acceptedEids fn cfg rest := by
  simp [acceptedEids, hid, hacc]

/-- Unfolding the accepted identifiers over an accepted hit. -/
theorem acceptedEids_cons_accept (fn : Str → Str → Bool) (cfg : FilterConfig)
    (h : Hit) (rest : List Hit) (eid : Str) (hid : extractId h = some eid)
    (hacc : acceptHit fn cfg h = true) :
    acceptedEids fn cfg (h :: rest) = eid :: acceptedEids fn cfg rest := by
  simp [acceptedEids, hid, hacc]

/-- Every identifier accepted during a run has a row in the resulting
store. -/
theorem accepted_present (fn : Str → Str → Bool) (cfg : FilterConfig)
    (qid now : Nat) :
    ∀ (hits : List Hit) (s : List Row), ∀ e ∈ acceptedEids fn cfg hits,
    hasKey qid e (runItems fn cfg qid now hits s).store = true := by
  intro hits
  induction hits with
  | nil => intro s e he; simp [acceptedEids] at he
  | cons h rest ih =>
    intro s e he
    cases hid : extractId h with
    | none =>
      rw [runItems_cons_none fn cfg qid now h rest s hid]
      rw [acceptedEids_cons_none fn cfg h rest hid] at he
      exact ih s e he
    | some eid =>
      cases hacc : acceptHit fn cfg h with
      | false =>
        rw [runItems_cons_reject fn cfg qid now h rest s eid hid hacc]
        rw [acceptedEids_cons_reject fn cfg h rest eid hid hacc] at he
        exact ih s e he
      | true =>
        rw [acceptedEids_cons_accept fn cfg h rest eid hid hacc] at he
        cases hk : hasKey qid eid s with
        | true =>
          rw [runItems_cons_update fn cfg qid now h rest s eid hid hacc hk]
          rcases List.mem_cons.mp he with h1 | h1
          · subst h1
            exact hasKey_runItems fn cfg qid now qid e rest _
              (by rw [hasKey_updateFirst]; exact hk)
          · exact ih _ e h1
        | false =>
          rw [runItems_cons_insert fn cfg qid now h rest s eid hid hacc hk]
          rcases List.mem_cons.mp he with h1 | h1
          · subst h1
            exact hasKey_runItems fn cfg qid now qid e rest _
              (by rw [hasKey_append]; simp [rowMatches])
          · exact ih _ e h1

/-- Composition of two element-wise list relations. -/
theorem forall2_compose {α β γ : Type} {R1 : α → β → Prop} {R2 : β → γ → Prop}
    {R3 : α → γ → Prop} (h : ∀ a b c, R1 a b → R2 b c → R3 a c) :
    ∀ {l1 : List α} {l2 : List β} {l3 : List γ},
    List.Forall₂ R1 l1 l2 → List.Forall₂ R2 l2 l3 → List.Forall₂ R3 l1 l3 := by
  intro l1 l2 l3 h12
  induction h12 generalizing l3 with
  | nil => intro h23; cases h23; exact List.Forall₂.nil
  | cons hab htail ih =>
    intro h23
    cases h23 with
    | cons hbc htail2 => exact List.Forall₂.cons (h _ _ _ hab hbc) (ih htail2)

/-- Weakening an element-wise relation using membership on the left. -/
theorem forall2_imp_mem {α β : Type} {R S : α → β → Prop} :
    ∀ {l1 : List α} {l2 : List β},
    (∀ a ∈ l1, ∀ b, R a b → S a b) → List.Forall₂ R l1 l2 →
    List.Forall₂ S l1 l2 := by
  intro l1
  induction l1 with
  | nil => intro l2 himp h12; cases h12; exact List.Forall₂.nil
  | cons a l1 ih =>
    intro l2 himp h12
    cases h12 with
    | cons hab htail =>
      exact List.Forall₂.cons (himp a (List.mem_cons_self _ _) _ hab)
        (ih (fun x hx b hr => himp x (List.mem_cons.mpr (Or.inr hx)) b hr) htail)

/-- A right-constant element-wise relation yields a fact about every
element of the right list. -/
theorem forall2_right_mem {α β : Type} {P : β → Prop} :
    ∀ {l1 : List α} {l2 : List β},
    List.Forall₂ (fun _ b => P b) l1 l2 → ∀ b ∈ l2, P b := by
  intro l1
  induction l1 with
  | nil => intro l2 h b hb; cases h; simp at hb
  | cons a l1 ih =>
    intro l2 h b hb
    cases h with
    | cons hab htail =>
      rcases List.mem_cons.mp hb with h1 | h1
      · subst h1; exact hab
      · exact ih htail b h1

/-- Under key uniqueness, the metadata update rewrites exactly the matching
row (new metadata, `last_seen_at := now`, key and `first_seen_at` kept) and
leaves every other row untouched. -/
theorem updateFirst_spec (qid : Nat) (e : Str) (now : Nat) (m : Meta) :
    ∀ s : List Row, keysUnique s →
    List.Forall₂ (fun a b =>
      if rowMatches qid e a = true then b = { a with meta := m, lastSeen := now }
      else b = a) s (updateFirst qid e now m s) := by
  intro s
  induction s with
  | nil => exact fun _ => List.Forall₂.nil
  | cons r rs ih =>
    intro hu
    rcases List.pairwise_cons.mp hu with ⟨h1, h2⟩
    simp only [updateFirst]
    by_cases hm : rowMatches qid e r = true
    · rw [if_pos hm]
      refine List.Forall₂.cons (by rw [if_pos hm]) ?_
      refine List.forall₂_same.mpr ?_
      intro a ha
      have hna : ¬(rowMatches qid e a = true) := by
        intro hcontra
        have hr : r.qid = qid ∧ r.eid = e := by
          simpa [rowMatches] using hm
        have haa : a.qid = qid ∧ a.eid = e := by
          simpa [rowMatches] using hcontra
        exact h1 a ha ⟨hr.1.trans haa.1.symm, hr.2.trans haa.2.symm⟩
      rw [if_neg hna]
    · rw [if_neg hm]
      exact List.Forall₂.cons (by rw [if_neg hm]) (ih h2)

/-- A run over hits whose accepted keys are all present only refreshes:
no new episodes, and row-wise the store evolves by `rowRel`. -/
theorem runItems_refresh (fn : Str → Str → Bool) (cfg : FilterConfig)
    (qid t2 : Nat) :
    ∀ (hits : List Hit) (s : List Row), keysUnique s →
    (∀ e ∈ acceptedEids fn cfg hits, hasKey qid e s = true) →
    (runItems fn cfg qid t2 hits s).newEps = [] ∧
    List.Forall₂ (rowRel qid (acceptedEids fn cfg hits) t2) s
      (runItems fn cfg qid t2 hits s).store := by
  intro hits
  induction hits with
  | nil =>
    intro s hu hpres
    refine ⟨rfl, List.forall₂_same.mpr ?_⟩
    intro a ha
    simp [acceptedEids, rowRel]
  | cons h rest ih =>
    intro s hu hpres
    cases hid : extractId h with
    | none =>
      rw [runItems_cons_none fn cfg qid t2 h rest s hid,
        acceptedEids_cons_none fn cfg h rest hid]
      rw [acceptedEids_cons_none fn cfg h rest hid] at hpres
      exact ih s hu hpres
    | some eid =>
      cases hacc : acceptHit fn cfg h with
      | false =>
        rw [runItems_cons_reject fn cfg qid t2 h rest s eid hid hacc,
          acceptedEids_cons_reject fn cfg h rest eid hid hacc]
        rw [acceptedEids_cons_reject fn cfg h rest eid hid hacc] at hpres
        exact ih s hu hpres
      | true =>
        rw [acceptedEids_cons_accept fn cfg h rest eid hid hacc] at hpres ⊢
        have hk : hasKey qid eid s = true :=
          hpres eid (List.mem_cons_self _ _)
        rw [runItems_cons_update fn cfg qid t2 h rest s eid hid hacc hk]
        have hu2 : keysUnique (updateFirst qid eid t2 (metaOf h) s) :=
          keysUnique_updateFirst qid eid t2 (metaOf h) s hu
        have hpres2 : ∀ e ∈ acceptedEids fn cfg rest,
            hasKey qid e (updateFirst qid eid t2 (metaOf h) s) = true := by
          intro e he
          rw [hasKey_updateFirst]
          exact hpres e (List.mem_cons.mpr (Or.inr he))
        obtain ⟨hnew, hrel⟩ := ih (updateFirst qid eid t2 (metaOf h) s) hu2 hpres2
        refine ⟨hnew, ?_⟩
        have hF1 := updateFirst_spec qid eid t2 (metaOf h) s hu
        refine forall2_compose ?_ hF1 hrel
        intro a b c hab hbc
        by_cases hm : rowMatches qid eid a = true
        · rw [if_pos hm] at hab
          have ha2 : a.qid = qid ∧ a.eid = eid := by simpa [rowMatches] using hm
          have hcond : a.qid = qid ∧ a.eid ∈ eid :: acceptedEids fn cfg rest :=
            ⟨ha2.1, by rw [ha2.2]; exact List.mem_cons_self _ _⟩
          simp only [rowRel] at hbc ⊢
          rw [if_pos hcond]
          by_cases hcond2 : b.qid = qid ∧ b.eid ∈ acceptedEids fn cfg rest
          · rw [if_pos hcond2] at hbc
            subst hab
            exact ⟨hbc.1, hbc.2.1, hbc.2.2.1, hbc.2.2.2⟩
          · rw [if_neg hcond2] at hbc
            subst hbc
            subst hab
            exact ⟨rfl, rfl, rfl, rfl⟩
        · rw [if_neg hm] at hab
          subst hab
          have hna : ¬(b.qid = qid ∧ b.eid = eid) := by
            intro hcon
            exact hm (by simp [rowMatches, hcon.1, hcon.2])
          by_cases hcond : b.qid = qid ∧ b.eid ∈ eid :: acceptedEids fn cfg rest
          · have hmem : b.eid ∈ acceptedEids fn cfg rest := by
              rcases List.mem_cons.mp hcond.2 with h1 | h1
              · exact absurd ⟨hcond.1, h1⟩ hna
              · exact h1
            simp only [rowRel] at hbc ⊢
            rw [if_pos hcond]
            rw [if_pos ⟨hcond.1, hmem⟩] at hbc
            exact hbc
          · have hcond2 : ¬(b.qid = qid ∧ b.eid ∈ acceptedEids fn cfg rest) := by
              intro hcon
              exact hcond ⟨hcon.1, List.mem_cons.mpr (Or.inr hcon.2)⟩
            simp only [rowRel] at hbc ⊢
            rw [if_neg hcond]
            rw [if_neg hcond2] at hbc
            exact hbc

/-- Every row produced by a run either shares its key with an original row
or carries the run's query identifier and an accepted identifier. -/
theorem store_provenance (fn : Str → Str → Bool) (cfg : FilterConfig)
    (qid now : Nat) :
    ∀ (hits : List Hit) (s : List Row) (r : Row),
    r ∈ (runItems fn cfg qid now hits s).store →
    (∃ a ∈ s, r.qid = a.qid ∧ r.eid = a.eid) ∨
    (r.qid = qid ∧ r.eid ∈ acceptedEids fn cfg hits) := by
  intro hits
  induction hits with
  | nil =>
    intro s r hr
    exact Or.inl ⟨r, hr, rfl, rfl⟩
  | cons h rest ih =>
    intro s r hr
    cases hid : extractId h with
    | none =>
      rw [runItems_cons_none fn cfg qid now h rest s hid] at hr
      rw [acceptedEids_cons_none fn cfg h rest hid]
      exact ih s r hr
    | some eid =>
      cases hacc : acceptHit fn cfg h with
      | false =>
        rw [runItems_cons_reject fn cfg qid now h rest s eid hid hacc] at hr
        rw [acceptedEids_cons_reject fn cfg h rest eid hid hacc]
        exact ih s r hr
      | true =>
        rw [acceptedEids_cons_accept fn cfg h rest eid hid hacc]
        cases hk : hasKey qid eid s with
        | true =>
          rw [runItems_cons_update fn cfg qid now h rest s eid hid hacc hk] at hr
          rcases ih _ r hr with ⟨a, ha, hkey⟩ | hright
          · obtain ⟨a0, ha0, hq, he⟩ :=
              mem_updateFirst_key qid eid now (metaOf h) s a ha
            exact Or.inl ⟨a0, ha0, hkey.1.trans hq, hkey.2.trans he⟩
          · exact Or.inr ⟨hright.1, List.mem_cons.mpr (Or.inr hright.2)⟩
        | false =>
          rw [runItems_cons_insert fn cfg qid now h rest s eid hid hacc hk] at hr
          rcases ih _ r hr with ⟨a, ha, hkey⟩ | hright
          · rcases List.mem_append.mp ha with h1 | h1
            · exact Or.inl ⟨a, h1, hkey⟩
            · simp only [List.mem_singleton] at h1
              subst h1
              refine Or.inr ⟨hkey.1, ?_⟩
              rw [hkey.2]
              exact List.mem_cons_self _ _
          · exact Or.inr ⟨hright.1, List.mem_cons.mpr (Or.inr hright.2)⟩

/-- Starting from an empty store, every stored row belongs to the query and
carries an accepted identifier. -/
theorem store_from_empty_touched (fn : Str → Str → Bool) (cfg : FilterConfig)
    (qid now : Nat) (hits : List Hit) (r : Row)
    (hr : r ∈ (runItems fn cfg qid now hits ([] : List Row)).store) :
    r.qid = qid ∧ r.eid ∈ acceptedEids fn cfg hits := by
  rcases store_provenance fn cfg qid now hits [] r hr with ⟨a, ha, _⟩ | h2
  · simp at ha
  · exact h2

/-- C3: the upsert updates metadata and `last_seen_at` of the existing row
for `(query_id, external_id)` leaving `first_seen_at` untouched, or inserts
a fresh row with `first_seen_at = last_seen_at = now` recorded as newly
discovered; consequently a second run over the same result set discovers
nothing new, keeps every `first_seen_at`, sets `last_seen_at` of every
touched row to the second timestamp, and leaves untouched rows exactly as
they were. -/
theorem upsert_and_idempotence (fn : Str → Str → Bool) (cfg : FilterConfig)
    (qid : Nat) :
    (∀ (now : Nat) (s : List Row) (eid : Str) (m : Meta),
      hasKey qid eid s = true →
      (upsertStep qid now s eid m).2 = false ∧
      (keysUnique s → List.Forall₂ (fun a b =>
        if rowMatches qid eid a = true
        then b = { a with meta := m, lastSeen := now } else b = a)
        s (upsertStep qid now s eid m).1)) ∧
    (∀ (now : Nat) (s : List Row) (eid : Str) (m : Meta),
      hasKey qid eid s = false →
      upsertStep qid now s eid m = (s ++ [⟨qid, eid, m, now, now⟩], true)) ∧
    (∀ (t1 t2 : Nat) (hits : List Hit) (s0 : List Row), keysUnique s0 →
      (runItems fn cfg qid t2 hits
        (runItems fn cfg qid t1 hits s0).store).newEps = [] ∧
      List.Forall₂ (rowRel qid (acceptedEids fn cfg hits) t2)
        (runItems fn cfg qid t1 hits s0).store
        (runItems fn cfg qid t2 hits
          (runItems fn cfg qid t1 hits s0).store).store) ∧
    (∀ (t1 t2 : Nat) (hits : List Hit),
      ∀ r ∈ (runItems fn cfg qid t2 hits
        (runItems fn cfg qid t1 hits ([] : List Row)).store).store,
        r.lastSeen = t2) := by
  refine ⟨?_, ?_, ?_, ?_⟩
  · intro now s eid m hk
    refine ⟨by simp [upsertStep, hk], ?_⟩
    intro hu
    simpa [upsertStep, hk] using updateFirst_spec qid eid now m s hu
  · intro now s eid m hk
    simp [upsertStep, hk]
  · intro t1 t2 hits s0 hu0
    exact runItems_refresh fn cfg qid t2 hits _
      (keysUnique_runItems fn cfg qid t1 hits s0 hu0)
      (fun e he => accepted_present fn cfg qid t1 hits s0 e he)
  · intro t1 t2 hits r hr
    have hu1 := keysUnique_runItems fn cfg qid t1 hits [] List.Pairwise.nil
    obtain ⟨hnew, hrel⟩ := runItems_refresh fn cfg qid t2 hits _
      hu1 (fun e he => accepted_present fn cfg qid t1 hits [] e he)
    have hrel2 : List.Forall₂ (fun _ b => b.lastSeen = t2)
        (runItems fn cfg qid t1 hits []).store
        (runItems fn cfg qid t2 hits
          (runItems fn cfg qid t1 hits []).store).store := by
      refine forall2_imp_mem ?_ hrel
      intro a ha b hab
      have hc := store_from_empty_touched fn cfg qid t1 hits a ha
      simp only [rowRel] at hab
      rw [if_pos hc] at hab
      exact hab.2.2.2
    exact forall2_right_mem hrel2 r hr

/-- Witness for `upsert_and_idempotence`: re-running the single accepted
hit discovers nothing new the second time. -/
theorem upsert_and_idempotence_spot :
    (runItems fn0 emptyConfig 7 11 [hitA]
      (runItems fn0 emptyConfig 7 3 [hitA] []).store).newEps = [] :=
  ((upsert_and_idempotence fn0 emptyConfig 7).2.2.1 3 11 [hitA] []
    List.Pairwise.nil).1

/-- Executing statements that contain no commit never changes the durable
state. -/
theorem execTrace_no_commit :
    ∀ (ops : List DbOp), (∀ op ∈ ops, op.isCommit = false) →
    ∀ d p : DbState, execTrace ops d p = d := by
  intro ops
  induction ops with
  | nil => intro _ d p; rfl
  | cons op rest ih =>
    intro hops d p
    cases op with
    | write f =>
      exact ih (fun o ho => hops o (List.mem_cons.mpr (Or.inr ho))) d (f p)
    | commit =>
      have := hops _ (List.mem_cons_self _ _)
      simp [DbOp.isCommit] at this

/-- Every statement of the run trace before the final commit is a write. -/
theorem runTrace_write_mem (fn : Str → Str → Bool) (cfg : FilterConfig)
    (qid now : Nat) (hits : List Hit) (s0 : List Row) :
    ∀ op ∈ ((hits.filterMap (hitOp fn cfg qid now)) ++
      [runRecOp fn cfg qid now hits s0, lastRunOp now]).map DbOp.write,
      op.isCommit = false := by
  intro op hop
  rcases List.mem_map.mp hop with ⟨f, _, rfl⟩
  rfl

/-- Executing a block of writes folds them over the pending state. -/
theorem execTrace_writes :
    ∀ (fs : List (DbState → DbState)) (tail : List DbOp) (d p : DbState),
    execTrace (fs.map DbOp.write ++ tail) d p =
      execTrace tail d (fs.foldl (fun st f => f st) p) := by
  intro fs
  induction fs with
  | nil => intro tail d p; rfl
  | cons f fs ih => intro tail d p; exact ih tail d (f p)

/-- Folding the per-item writes over a state performs exactly the episode
upserts of the per-item loop. -/
theorem foldl_hitOps (fn : Str → Str → Bool) (cfg : FilterConfig)
    (qid now : Nat) :
    ∀ (hits : List Hit) (st : DbState),
    (hits.filterMap (hitOp fn cfg qid now)).foldl (fun s f => f s) st =
      { st with episodes := (runItems fn cfg qid now hits st.episodes).store } := by
  intro hits
  induction hits with
  | nil => intro st; rfl
  | cons h rest ih =>
    intro st
    cases hid : extractId h with
    | none =>
      simp only [List.filterMap_cons, hitOp, hid]
      rw [runItems_cons_none fn cfg qid now h rest st.episodes hid]
      exact ih st
    | some eid =>
      cases hacc : acceptHit fn cfg h with
      | false =>
        simp [hitOp, hid, hacc]
        rw [runItems_cons_reject fn cfg qid now h rest st.episodes eid hid hacc]
        exact ih st
      | true =>
        simp only [List.filterMap_cons, hitOp, hid, hacc, if_true,
          List.foldl_cons]
        rw [ih ({ st with
          episodes := (upsertStep qid now st.episodes eid (metaOf h)).1 })]
        cases hk : hasKey qid eid st.episodes with
        | true =>
          rw [runItems_cons_update fn cfg qid now h rest st.episodes eid hid hacc hk]
          simp [upsertStep, hk]
        | false =>
          rw [runItems_cons_insert fn cfg qid now h rest st.episodes eid hid hacc hk]
          simp [upsertStep, hk]

/-- C8: the run's statement trace has exactly one commit and it is the
final statement; aborting at any point before it leaves the durable store
exactly as it was; completing the run durably applies, in one unit, all
item upserts, the run record, and the query's `last_run`/`updated_at`
update. -/
theorem run_commit_atomicity (fn : Str → Str → Bool) (cfg : FilterConfig)
    (qid now : Nat) (hits : List Hit) :
    (∀ s0 : List Row,
      (∀ op ∈ (runTrace fn cfg qid now hits s0).dropLast, op.isCommit = false) ∧
      (runTrace fn cfg qid now hits s0).getLast? = some DbOp.commit) ∧
    (∀ (s0 : List Row) (k : Nat),
      k < (runTrace fn cfg qid now hits s0).length →
      ∀ d p : DbState,
        execTrace ((runTrace fn cfg qid now hits s0).take k) d p = d) ∧
    (∀ d : DbState,
      execTrace (runTrace fn cfg qid now hits d.episodes) d d =
        ⟨(runItems fn cfg qid now hits d.episodes).store,
         d.runs ++ [⟨qid, now,
           (runItems fn cfg qid now hits d.episodes).newEps.length,
           (runItems fn cfg qid now hits d.episodes).processed⟩],
         some now, some now⟩) := by
  refine ⟨?_, ?_, ?_⟩
  · intro s0
    constructor
    · intro op hop
      simp only [runTrace, List.dropLast_concat] at hop
      exact runTrace_write_mem fn cfg qid now hits s0 op hop
    · simp only [runTrace]
      exact List.getLast?_concat _
  · intro s0 k hk d p
    simp only [runTrace] at hk ⊢
    rw [List.length_append] at hk
    rw [List.take_append_of_le_length (by simp at hk ⊢; omega)]
    refine execTrace_no_commit _ ?_ d p
    intro op hop
    exact runTrace_write_mem fn cfg qid now hits s0 op (List.take_subset _ _ hop)
  · intro d
    simp only [runTrace]
    rw [execTrace_writes]
    simp only [execTrace]
    rw [List.foldl_append, foldl_hitOps fn cfg qid now hits d]
    simp only [List.foldl_cons, List.foldl_nil, runRecOp, lastRunOp]

/-- Witness for `run_commit_atomicity`: stopping after the first two
statements of a concrete run leaves the empty durable store empty. -/
theorem run_commit_atomicity_spot :
    execTrace ((runTrace fn0 emptyConfig 1 5 [hitA] []).take 2)
      ⟨[], [], none, none⟩ ⟨[], [], none, none⟩ = ⟨[], [], none, none⟩ :=
  (run_commit_atomicity fn0 emptyConfig 1 5 [hitA]).2.1 [] 2 (by decide)
    ⟨[], [], none, none⟩ ⟨[], [], none, none⟩

end PodcastFinder
